import Mathlib

/-!
# Verification of the pi-publish session transform

A shallow embedding of the session-log-to-published-document transformation
of the pi-publish repository, together with theorems settling the frozen
claims about it.

Modelling conventions:
* JavaScript strings are modelled as `List Char` (`Str`); `s.slice(n)` is
  `List.drop n`, `s.startsWith p` is `p <+: s`, `s === t` is list equality.
* JavaScript numbers (timestamps, token counts, costs) are modelled as exact
  rationals `ℚ`; `Math.round x` is `⌊x + 1/2⌋` (JS rounds half toward +∞).
  IEEE-754 double rounding drift is outside the scope of this model.
* Absent / `undefined` record fields are modelled as `Option`; an omitted
  output field is `none`.
* The ambient home directory (`homedir()` and its `realpathSync`) is passed
  to the functions that read it as explicit `home` / `homeReal` parameters.
-/

/-- A JavaScript string, modelled as its sequence of characters. -/
abbrev Str := List Char

/-- `String.trim` of JS: drop whitespace from both ends. -/
def jsTrim (s : Str) : Str :=
  ((s.dropWhile Char.isWhitespace).reverse.dropWhile Char.isWhitespace).reverse

/-- `text.split("\n")[0]`: the prefix of `s` before the first newline. -/
def jsFirstLine (s : Str) : Str :=
  s.takeWhile (· ≠ '\n')

/-- `s.split("/")` for a JS string: fragments between `'/'` separators. -/
def jsSplitSlash (s : Str) : List Str :=
  s.splitOn '/'

/-- `s.lastIndexOf(c)` as an `Int`, `-1` when the character does not occur. -/
def jsLastIndexOf (c : Char) (s : Str) : Int :=
  match (s.reverse.findIdx? (· = c)) with
  | some j => (s.length : Int) - 1 - j
  | none => -1

/-- Total UTF-8 byte length of a string (`Buffer.byteLength` in the source). -/
def utf8Len (s : Str) : Nat :=
  (s.map Char.utf8Size).sum

/-- The longest prefix of `s` whose UTF-8 encoding fits in `budget` bytes.
This models `Buffer.from(s).subarray(0, budget).toString("utf8")`: the byte
cut of the source falls at `budget` exactly; a character split by the cut is
dropped here (the source's UTF-8 decode renders its leading bytes as
replacement characters — no claim depends on those bytes). -/
def utf8Take (budget : Nat) : Str → Str
  | [] => []
  | c :: cs => if c.utf8Size ≤ budget then c :: utf8Take (budget - c.utf8Size) cs else []

-- === src: transform.ts constants and helpers ===

/-- `MAX_TOOL_OUTPUT_BYTES` from the source. -/
def MAX_TOOL_OUTPUT_BYTES : Nat := 4096

/-- `homePrefixes`: the nominal home directory, plus its resolved real path
when that differs (`home === homeReal ? [home] : [home, homeReal]`). -/
def homePrefixesOf (home homeReal : Str) : List Str :=
  if home = homeReal then [home] else [home, homeReal]

/-- The tilde rule of `shortenPath` for a matched home prefix: strip the
prefix, split on `/` discarding empty segments, keep at most the last three
segments behind `~/.../` when more than three remain. -/
def homeTilde (p fullPath : Str) : Str :=
  let segments := (jsSplitSlash (fullPath.drop (p.length + 1))).filter (· ≠ [])
  if segments.length ≤ 3 then
    '~' :: '/' :: (List.intercalate ['/'] segments)
  else
    ('~' :: '/' :: '.' :: '.' :: '.' :: '/' :: []) ++
      List.intercalate ['/'] (segments.drop (segments.length - 3))

/-- `shortenPath(fullPath, cwd)` from the source, with the ambient
`homePrefixes` made explicit. -/
def shortenPath (home homeReal fullPath cwd : Str) : Str :=
  if (cwd ++ ['/']) <+: fullPath then
    fullPath.drop (cwd.length + 1)
  else if fullPath = cwd then
    ['.']
  else
    match (homePrefixesOf home homeReal).find?
        (fun p => decide ((p ++ ['/']) <+: fullPath) || decide (fullPath = p)) with
    | some p => homeTilde p fullPath
    | none => fullPath

-- === Theorems: C7 ===

/-- A strict extension of a list is never its prefix. -/
theorem strict_extension_not_initial (l : List Char) (c : Char) : ¬ ((l ++ [c]) <+: l) := by
  intro h
  have := h.length_le
  simp at this

/-- C7: path shortening. (1) a path equal to `cwd` yields `"."`; (2) a path
starting with `cwd ++ "/"` is returned with that prefix stripped; (3) a path
strictly under the nominal home (or, failing that, under the resolved real
home) gets the home prefix replaced following the tilde rule, keeping only
the last 3 segments behind `~/.../` when more than 3 remain; (4) any other
path is returned unchanged. -/
theorem shortenPath_spec (home homeReal path cwd rest : Str) :
    (shortenPath home homeReal cwd cwd = ['.'])
    ∧ (shortenPath home homeReal (cwd ++ '/' :: rest) cwd = rest)
    ∧ (¬ ((cwd ++ ['/']) <+: path) → path ≠ cwd →
        path = home ++ '/' :: rest →
        shortenPath home homeReal path cwd = homeTilde home path)
    ∧ (¬ ((cwd ++ ['/']) <+: path) → path ≠ cwd →
        ¬ ((home ++ ['/']) <+: path) → path ≠ home →
        path = homeReal ++ '/' :: rest →
        shortenPath home homeReal path cwd = homeTilde homeReal path)
    ∧ (¬ ((cwd ++ ['/']) <+: path) → path ≠ cwd →
        ¬ ((home ++ ['/']) <+: path) → path ≠ home →
        ¬ ((homeReal ++ ['/']) <+: path) → path ≠ homeReal →
        shortenPath home homeReal path cwd = path) := by
  refine ⟨?_, ?_, ?_, ?_, ?_⟩
  · rw [shortenPath, if_neg (strict_extension_not_initial cwd '/'), if_pos rfl]
  · have hpre : (cwd ++ ['/']) <+: (cwd ++ '/' :: rest) := by
      refine ⟨rest, by simp⟩
    rw [shortenPath, if_pos hpre]
    have : cwd ++ '/' :: rest = (cwd ++ ['/']) ++ rest := by simp
    rw [this]
    have hlen : (cwd ++ ['/']).length = cwd.length + 1 := by simp
    rw [← hlen, List.drop_left]
  · intro h1 h2 h3
    have hpre : (home ++ ['/']) <+: path := ⟨rest, by simp [h3]⟩
    rw [shortenPath, if_neg h1, if_neg h2]
    unfold homePrefixesOf
    by_cases hh : home = homeReal
    · subst hh
      simp [List.find?, hpre]
    · simp [hh, List.find?, hpre]
  · intro h1 h2 h3 h4 h5
    have hpre : (homeReal ++ ['/']) <+: path := ⟨rest, by simp [h5]⟩
    have hne : home ≠ homeReal := by
      intro he; exact h3 (he ▸ hpre)
    rw [shortenPath, if_neg h1, if_neg h2]
    unfold homePrefixesOf
    simp [hne, List.find?, h3, h4, hpre]
  · intro h1 h2 h3 h4 h5 h6
    rw [shortenPath, if_neg h1, if_neg h2]
    unfold homePrefixesOf
    by_cases hh : home = homeReal <;> simp [hh, List.find?, h3, h4, h5, h6]

/-- C7 witness: the three round-trip examples of the spec, instantiated with
a home directory away from the paths involved. -/
theorem shortenPath_spec_witness :
    shortenPath "/home/u".toList "/home/u".toList
        "/projects/myapp/src/main.ts".toList "/projects/myapp".toList
      = "src/main.ts".toList
    ∧ shortenPath "/home/u".toList "/home/u".toList
        "/projects/myapp".toList "/projects/myapp".toList = ['.']
    ∧ shortenPath "/home/u".toList "/home/u".toList
        "/tmp/x.ts".toList "/projects/myapp".toList = "/tmp/x.ts".toList := by
  refine ⟨?_, ?_, ?_⟩
  · have h := (shortenPath_spec "/home/u".toList "/home/u".toList []
      "/projects/myapp".toList "src/main.ts".toList).2.1
    have he : "/projects/myapp".toList ++ '/' :: "src/main.ts".toList
        = "/projects/myapp/src/main.ts".toList := by decide
    rw [he] at h
    exact h
  · exact (shortenPath_spec "/home/u".toList "/home/u".toList []
      "/projects/myapp".toList []).1
  · exact (shortenPath_spec "/home/u".toList "/home/u".toList
      "/tmp/x.ts".toList "/projects/myapp".toList []).2.2.2.2
      (by decide) (by decide) (by decide) (by decide) (by decide) (by decide)

-- === src: transform.ts truncateOutput ===

/-- The truncation marker appended by `truncateOutput`. -/
def truncMarker : Str := "\n…[truncated]".toList

/-- `truncateOutput(output)` from the source: outputs of at most
`MAX_TOOL_OUTPUT_BYTES` UTF-8 bytes are returned unchanged; longer ones are
cut to the byte budget, backed up to the last newline when its index is
positive (`lastNewline > 0` in the source), and suffixed with the marker. -/
def truncateOutput (output : Str) : Str :=
  if utf8Len output ≤ MAX_TOOL_OUTPUT_BYTES then output
  else
    (if jsLastIndexOf '\n' (utf8Take MAX_TOOL_OUTPUT_BYTES output) > 0 then
      (utf8Take MAX_TOOL_OUTPUT_BYTES output).take
        (jsLastIndexOf '\n' (utf8Take MAX_TOOL_OUTPUT_BYTES output)).toNat
    else utf8Take MAX_TOOL_OUTPUT_BYTES output) ++ truncMarker

/-- Claim C8 as stated: the backup to the preceding newline happens whenever
a newline exists in the truncated prefix (the claim admits a raw byte cut
only "if no newline exists"). Differs from the source exactly when the only
newline of the truncated prefix is its first character. -/
def truncateOutputClaimC8 (output : Str) : Str :=
  if utf8Len output ≤ MAX_TOOL_OUTPUT_BYTES then output
  else
    (if jsLastIndexOf '\n' (utf8Take MAX_TOOL_OUTPUT_BYTES output) ≥ 0 then
      (utf8Take MAX_TOOL_OUTPUT_BYTES output).take
        (jsLastIndexOf '\n' (utf8Take MAX_TOOL_OUTPUT_BYTES output)).toNat
    else utf8Take MAX_TOOL_OUTPUT_BYTES output) ++ truncMarker

-- Facts about UTF-8 lengths and prefixes.

theorem utf8Len_cons (c : Char) (s : Str) : utf8Len (c :: s) = c.utf8Size + utf8Len s := by
  simp [utf8Len]

theorem utf8Len_append (s t : Str) : utf8Len (s ++ t) = utf8Len s + utf8Len t := by
  simp [utf8Len]

theorem utf8Len_replicate (n : Nat) (c : Char) :
    utf8Len (List.replicate n c) = n * c.utf8Size := by
  induction n with
  | zero => simp [utf8Len]
  | succ k ih =>
    rw [List.replicate_succ, utf8Len_cons, ih, Nat.succ_mul]
    omega

theorem utf8Take_zero (s : Str) : utf8Take 0 s = [] := by
  cases s with
  | nil => rfl
  | cons c cs =>
    have := Char.utf8Size_pos c
    simp [utf8Take]
    omega

theorem utf8Take_replicate_append (c : Char) (h1 : c.utf8Size = 1) (rest : Str) :
    ∀ n b, n ≤ b →
      utf8Take b (List.replicate n c ++ rest) = List.replicate n c ++ utf8Take (b - n) rest := by
  intro n
  induction n with
  | zero => intro b _; simp
  | succ k ih =>
    intro b hb
    rw [List.replicate_succ, List.cons_append]
    rw [utf8Take, if_pos (by omega : c.utf8Size ≤ b), h1]
    rw [ih (b - 1) (by omega)]
    have : b - 1 - k = b - (k + 1) := by omega
    rw [this]
    simp [List.replicate_succ]

/-- `utf8Take` never exceeds its byte budget. -/
theorem utf8Len_utf8Take (budget : Nat) (s : Str) : utf8Len (utf8Take budget s) ≤ budget := by
  induction s generalizing budget with
  | nil => simp [utf8Take, utf8Len]
  | cons c cs ih =>
    rw [utf8Take]
    by_cases h : c.utf8Size ≤ budget
    · rw [if_pos h, utf8Len_cons]
      have := ih (budget - c.utf8Size)
      omega
    · rw [if_neg h]
      simp [utf8Len]

theorem findIdx?_replicate_ne {x c : Char} (h : ¬ (x = c)) (n : Nat) :
    (List.replicate n x).findIdx? (· = c) = none := by
  induction n with
  | zero => rfl
  | succ k ih => simp [List.replicate_succ, List.findIdx?_cons, h, ih]

/-- The last occurrence of `c` in `pre ++ c :: xⁿ` (with `x ≠ c`) is at
index `pre.length`. -/
theorem jsLastIndexOf_pre_cons_replicate (c x : Char) (hx : ¬ (x = c)) (pre : Str) (m : Nat) :
    jsLastIndexOf c (pre ++ c :: List.replicate m x) = (pre.length : Int) := by
  rw [jsLastIndexOf]
  have hrev : (pre ++ c :: List.replicate m x).reverse
      = (List.replicate m x ++ [c]) ++ pre.reverse := by
    simp
  rw [hrev]
  rw [List.findIdx?_append, List.findIdx?_append]
  rw [findIdx?_replicate_ne hx]
  simp [List.findIdx?_cons, List.length_append, List.length_replicate]
  omega

theorem utf8Take_cons (c : Char) (cs : Str) (b : Nat) :
    utf8Take b (c :: cs) = if c.utf8Size ≤ b then c :: utf8Take (b - c.utf8Size) cs else [] :=
  rfl

-- === Theorems: C8 ===

/-- C8 (amended): tool-output truncation returns any output of at most 4096
UTF-8 bytes unchanged; a longer output is cut to the 4096-byte budget, backed
up to the nearest preceding newline when one exists at a positive index, and
keeps the raw byte cut when no newline exists in the cut prefix or the only
newline is its very first character; the truncation marker is appended. -/
theorem truncateOutput_amended (s : Str) :
    (utf8Len s ≤ MAX_TOOL_OUTPUT_BYTES → truncateOutput s = s)
    ∧ utf8Len (utf8Take MAX_TOOL_OUTPUT_BYTES s) ≤ MAX_TOOL_OUTPUT_BYTES
    ∧ (MAX_TOOL_OUTPUT_BYTES < utf8Len s →
        (∀ i : Nat,
          jsLastIndexOf '\n' (utf8Take MAX_TOOL_OUTPUT_BYTES s) = (i : Int) → 0 < i →
          truncateOutput s = (utf8Take MAX_TOOL_OUTPUT_BYTES s).take i ++ truncMarker)
        ∧ (jsLastIndexOf '\n' (utf8Take MAX_TOOL_OUTPUT_BYTES s) ≤ 0 →
          truncateOutput s = utf8Take MAX_TOOL_OUTPUT_BYTES s ++ truncMarker)) := by
  refine ⟨?_, utf8Len_utf8Take _ _, ?_⟩
  · intro h
    rw [truncateOutput, if_pos h]
  · intro hgt
    constructor
    · intro i hi hpos
      rw [truncateOutput, if_neg (by omega), hi, if_pos (by exact_mod_cast hpos)]
      norm_num
    · intro hle
      rw [truncateOutput, if_neg (by omega), if_neg (by omega)]

def c8WitnessInput : Str := List.replicate 100 'x' ++ '\n' :: List.replicate 4000 'y'

theorem c8Witness_take :
    utf8Take MAX_TOOL_OUTPUT_BYTES c8WitnessInput
      = List.replicate 100 'x' ++ '\n' :: List.replicate 3995 'y' := by
  have h3 : utf8Take 3995 (List.replicate 4000 'y') = List.replicate 3995 'y' := by
    rw [show List.replicate 4000 'y' = List.replicate 3995 'y' ++ List.replicate 5 'y' from by
      rw [← List.replicate_add]]
    rw [utf8Take_replicate_append 'y' rfl _ 3995 3995 (le_refl _),
      show (3995 - 3995 : Nat) = 0 from rfl, utf8Take_zero, List.append_nil]
  have h2 : utf8Take 3996 ('\n' :: List.replicate 4000 'y')
      = '\n' :: List.replicate 3995 'y' := by
    rw [utf8Take_cons, if_pos (show ('\n').utf8Size ≤ 3996 by decide),
      show (3996 - ('\n').utf8Size : Nat) = 3995 from rfl, h3]
  rw [c8WitnessInput, MAX_TOOL_OUTPUT_BYTES,
    utf8Take_replicate_append 'x' rfl _ 100 4096 (by omega),
    show (4096 - 100 : Nat) = 3996 from rfl, h2]

theorem c8Witness_len : utf8Len c8WitnessInput = 4101 := by
  rw [c8WitnessInput, utf8Len_append, utf8Len_cons, utf8Len_replicate, utf8Len_replicate,
    show 'x'.utf8Size = 1 from rfl, show ('\n').utf8Size = 1 from rfl,
    show 'y'.utf8Size = 1 from rfl]

/-- C8 witness: a 4101-byte output with a newline 100 characters in is cut
at the byte budget and backed up to that newline. -/
theorem truncateOutput_amended_witness :
    MAX_TOOL_OUTPUT_BYTES < utf8Len c8WitnessInput
    ∧ truncateOutput c8WitnessInput
        = (utf8Take MAX_TOOL_OUTPUT_BYTES c8WitnessInput).take 100 ++ truncMarker := by
  have hlen : MAX_TOOL_OUTPUT_BYTES < utf8Len c8WitnessInput := by
    rw [c8Witness_len, MAX_TOOL_OUTPUT_BYTES]
    omega
  have hidx : jsLastIndexOf '\n' (utf8Take MAX_TOOL_OUTPUT_BYTES c8WitnessInput)
      = (100 : Int) := by
    rw [c8Witness_take]
    have h := jsLastIndexOf_pre_cons_replicate '\n' 'y' (by decide) (List.replicate 100 'x') 3995
    rw [List.length_replicate] at h
    exact_mod_cast h
  exact ⟨hlen, ((truncateOutput_amended c8WitnessInput).2.2 hlen).1 100 hidx (by omega)⟩

def c8CexInput : Str := '\n' :: List.replicate 5000 'a'

theorem c8Cex_take :
    utf8Take MAX_TOOL_OUTPUT_BYTES c8CexInput = '\n' :: List.replicate 4095 'a' := by
  have h3 : utf8Take 4095 (List.replicate 5000 'a') = List.replicate 4095 'a' := by
    rw [show List.replicate 5000 'a' = List.replicate 4095 'a' ++ List.replicate 905 'a' from by
      rw [← List.replicate_add]]
    rw [utf8Take_replicate_append 'a' rfl _ 4095 4095 (le_refl _),
      show (4095 - 4095 : Nat) = 0 from rfl, utf8Take_zero, List.append_nil]
  rw [c8CexInput, MAX_TOOL_OUTPUT_BYTES, utf8Take_cons,
    if_pos (show ('\n').utf8Size ≤ 4096 by decide),
    show (4096 - ('\n').utf8Size : Nat) = 4095 from rfl, h3]

theorem c8Cex_len : utf8Len c8CexInput = 5001 := by
  rw [c8CexInput, utf8Len_cons, utf8Len_replicate,
    show ('\n').utf8Size = 1 from rfl, show 'a'.utf8Size = 1 from rfl]

/-- C8 counterexample: on an over-budget output whose only newline is its
first character, the source keeps the raw byte cut (`lastNewline > 0` fails
at index 0), while the claim as stated backs up to that newline. -/
theorem truncateOutput_claimC8_counterexample :
    truncateOutput c8CexInput ≠ truncateOutputClaimC8 c8CexInput := by
  have hgt : ¬ (utf8Len c8CexInput ≤ MAX_TOOL_OUTPUT_BYTES) := by
    rw [c8Cex_len, MAX_TOOL_OUTPUT_BYTES]
    omega
  have hidx : jsLastIndexOf '\n' (utf8Take MAX_TOOL_OUTPUT_BYTES c8CexInput) = (0 : Int) := by
    rw [c8Cex_take]
    have h := jsLastIndexOf_pre_cons_replicate '\n' 'a' (by decide) [] 4095
    rw [List.nil_append] at h
    exact_mod_cast h
  have hcode : truncateOutput c8CexInput = ('\n' :: List.replicate 4095 'a') ++ truncMarker := by
    rw [truncateOutput, if_neg hgt, hidx, if_neg (by omega), c8Cex_take]
  have hclaim : truncateOutputClaimC8 c8CexInput = truncMarker := by
    rw [truncateOutputClaimC8, if_neg hgt, hidx, if_pos (by omega),
      show (0 : Int).toNat = 0 from rfl, List.take_zero, List.nil_append]
  rw [hcode, hclaim]
  intro h
  have hl := congrArg List.length h
  rw [List.length_append, List.length_cons, List.length_replicate] at hl
  omega

-- === Data model (src: types.ts / branch entries) ===

/-- Message roles occurring in the session log. -/
inductive Role
  | user
  | assistant
  | toolResult
deriving DecidableEq

/-- The six reasoning levels of the `ThinkingLevel` union type. -/
inductive ThinkingLevel
  | off
  | minimal
  | low
  | medium
  | high
  | xhigh
deriving DecidableEq

/-- A tool call's argument object. The source reads properties from a
`Record<string, unknown>` and only ever coerces them with `String(...)` after
a truthiness test; values are therefore modelled as strings, with truthiness
being non-emptiness, and an absent property being an absent key. -/
abbrev Args := List (String × Str)

/-- One content block of a message; `other` stands for any block type the
transform does not branch on (e.g. images). -/
inductive Block
  | thinking (text : Str)
  | text (text : Str)
  | toolCall (id : String) (name : String) (arguments : Args)
  | other
deriving DecidableEq

/-- A message `content` value: a plain string, an ordered block sequence, or
anything else (treated by every consumer as contributing nothing). -/
inductive ContentVal
  | str (s : Str)
  | blocks (bs : List Block)
  | other
deriving DecidableEq

/-- `usage.cost` of an assistant message. -/
structure UsageCost where
  total : Option ℚ
deriving DecidableEq

/-- `usage` of an assistant message; every field optional (`?? 0` in source). -/
structure Usage where
  input : Option ℚ
  output : Option ℚ
  cost : Option UsageCost
deriving DecidableEq

/-- A message payload, with exactly the fields the transform reads. -/
structure Msg where
  role : Role
  content : ContentVal
  timestamp : ℚ
  model : Option String := none
  usage : Option Usage := none
  toolCallId : Option String := none
  isError : Bool := false
deriving DecidableEq

/-- A branch entry. A `message` entry without its payload, or a
`thinking_level_change` entry without a (truthy) level, fails the source's
guards exactly like an unrecognized entry type, so both are folded into
`other`. -/
inductive BranchEntry
  | message (msg : Msg)
  | thinkingLevelChange (level : ThinkingLevel)
  | other
deriving DecidableEq

-- === src: transform.ts text and argument helpers ===

/-- `extractTextContent`: the text of the `text` blocks with non-empty text,
newline-joined. -/
def extractTextContent (content : List Block) : Str :=
  List.intercalate ['\n']
    (content.filterMap (fun b =>
      match b with
      | Block.text t => if t ≠ [] then some t else none
      | _ => none))

/-- Text extraction from a `content` value as done for prompts and titles:
a plain string is used directly, a block array goes through
`extractTextContent`, anything else yields the empty string. -/
def textOfContent : ContentVal → Str
  | ContentVal.str s => s
  | ContentVal.blocks bs => extractTextContent bs
  | ContentVal.other => []

/-- `titleFromFirstUserLine`: walk the messages; for each user message take
the trimmed first line of its text; return the first non-empty one truncated
to 30 characters, and the fixed default label when none is found. -/
def titleFromFirstUserLine : List Msg → Str
  | [] => "Shared session".toList
  | m :: ms =>
    if m.role = Role.user then
      let firstLine := jsTrim (jsFirstLine (textOfContent m.content))
      if firstLine ≠ [] then firstLine.take 30 else titleFromFirstUserLine ms
    else titleFromFirstUserLine ms

/-- Escaping of `JSON.stringify` restricted to what can occur in the
string-valued argument model (backslash, quote, newline). -/
def jsonEscape (s : Str) : Str :=
  s.flatMap (fun c =>
    if c = '\\' then ['\\', '\\']
    else if c = '"' then ['\\', '"']
    else if c = '\n' then ['\\', 'n']
    else [c])

/-- `JSON.stringify(args)` on the string-valued argument model: quoted
key/value pairs inside braces. Only its length matters to any claim. -/
def jsonStringify (args : Args) : Str :=
  ['\x7b']
  ++ List.intercalate [',']
      (args.map (fun kv =>
        '"' :: jsonEscape kv.1.toList ++ '"' :: ':' :: '"' :: jsonEscape kv.2 ++ ['"']))
  ++ ['\x7d']

/-- `summarizeToolArgs(toolName, args, cwd)` from the source. -/
def summarizeToolArgs (home homeReal : Str) (toolName : String) (args : Args)
    (cwd : Str) : Str :=
  if toolName = "read" ∨ toolName = "write" ∨ toolName = "edit" then
    match args.lookup "path" with
    | some p => if p ≠ [] then shortenPath home homeReal p cwd else []
    | none => []
  else if toolName = "bash" then
    match args.lookup "command" with
    | some c => if c ≠ [] then c else []
    | none => []
  else
    let str := jsonStringify args
    if str.length > 200 then str.take 200 ++ ['…'] else str

-- === src: transform.ts buildPublishedSession ===

/-- Diff payload attached to edit actions. -/
structure DiffData where
  path : Str
  oldText : Str
  newText : Str
deriving DecidableEq

/-- A tool (Action) step of the published session; `output` and `diff` model
optionally-present fields. -/
structure ToolStep where
  name : String
  args : Str
  ok : Bool
  output : Option Str := none
  diff : Option DiffData := none
deriving DecidableEq

/-- A step of the published session. -/
inductive Step
  | thinking (text : Str)
  | text (text : Str)
  | tool (step : ToolStep)
deriving DecidableEq

/-- The Action step built for one `toolCall` block: the result is correlated
by call id; failure is recorded only when a result exists and carries the
error flag; output is attached only for failures and bash successes, and
only when the result's text content is non-empty; diff data is attached for
edit calls with truthy path/oldText/newText arguments. -/
def buildToolStep (home homeReal : Str) (toolResults : List (String × Msg)) (cwd : Str)
    (toolCallId toolName : String) (args : Args) : ToolStep :=
  let result := toolResults.lookup toolCallId
  let isError :=
    match result with
    | some r => r.isError
    | none => false
  { name := toolName
    args := summarizeToolArgs home homeReal toolName args cwd
    ok := !isError
    output :=
      match result with
      | some r =>
        if isError = true ∨ toolName = "bash" then
          match r.content with
          | ContentVal.blocks rbs =>
            let outp := extractTextContent rbs
            if outp ≠ [] then some (truncateOutput outp) else none
          | _ => none
        else none
      | none => none
    diff :=
      if toolName = "edit" then
        match args.lookup "path", args.lookup "oldText", args.lookup "newText" with
        | some p, some o, some n =>
          if p ≠ [] ∧ o ≠ [] ∧ n ≠ [] then
            some { path := shortenPath home homeReal p cwd, oldText := o, newText := n }
          else none
        | _, _, _ => none
      else none }

/-- The step (if any) emitted for one content block of an assistant message:
non-empty trimmed thinking and text blocks become steps, every `toolCall`
becomes an Action step, other block kinds are skipped. -/
def stepOfBlock (home homeReal : Str) (toolResults : List (String × Msg)) (cwd : Str) :
    Block → Option Step
  | Block.thinking t =>
    let text := jsTrim t
    if text ≠ [] then some (Step.thinking text) else none
  | Block.text t =>
    let text := jsTrim t
    if text ≠ [] then some (Step.text text) else none
  | Block.toolCall id name args =>
    some (Step.tool (buildToolStep home homeReal toolResults cwd id name args))
  | Block.other => none

/-- The steps of one assistant message's content, in block order. -/
def stepsOfBlocks (home homeReal : Str) (toolResults : List (String × Msg)) (cwd : Str)
    (content : List Block) : List Step :=
  content.filterMap (stepOfBlock home homeReal toolResults cwd)

/-- The steps a message contributes to its turn: only assistant messages
with a block-array content contribute. -/
def msgSteps (home homeReal : Str) (toolResults : List (String × Msg)) (cwd : Str)
    (m : Msg) : List Step :=
  if m.role = Role.assistant then
    match m.content with
    | ContentVal.blocks bs => stepsOfBlocks home homeReal toolResults cwd bs
    | _ => []
  else []

/-- `usage.input ?? 0` of a message (0 when usage is absent). -/
def usageInput (m : Msg) : ℚ :=
  match m.usage with
  | some u => u.input.getD 0
  | none => 0

/-- `usage.output ?? 0` of a message (0 when usage is absent). -/
def usageOutput (m : Msg) : ℚ :=
  match m.usage with
  | some u => u.output.getD 0
  | none => 0

/-- `usage.cost?.total ?? 0` of a message (0 when usage is absent). -/
def usageCostTotal (m : Msg) : ℚ :=
  match m.usage with
  | some u => (u.cost.bind UsageCost.total).getD 0
  | none => 0

/-- Sum of `usage.input` over the turn's assistant messages. -/
def turnInputSum (msgs : List Msg) : ℚ :=
  ((msgs.filter (fun m => decide (m.role = Role.assistant))).map usageInput).sum

/-- Sum of `usage.output` over the turn's assistant messages. -/
def turnOutputSum (msgs : List Msg) : ℚ :=
  ((msgs.filter (fun m => decide (m.role = Role.assistant))).map usageOutput).sum

/-- Sum of `usage.cost?.total` over the turn's assistant messages — the
turn's cost before rounding. -/
def turnCostSum (msgs : List Msg) : ℚ :=
  ((msgs.filter (fun m => decide (m.role = Role.assistant))).map usageCostTotal).sum

/-- The last non-empty model identifier among the turn's assistant messages. -/
def turnModel (msgs : List Msg) : String :=
  msgs.foldl
    (fun acc m =>
      if m.role = Role.assistant then
        match m.model with
        | some md => if md ≠ "" then md else acc
        | none => acc
      else acc)
    ""

/-- The maximal timestamp over the turn's messages, starting from the
triggering user message's timestamp. -/
def turnMaxTs (userTs : ℚ) (msgs : List Msg) : ℚ :=
  msgs.foldl (fun acc m => if m.timestamp > acc then m.timestamp else acc) userTs

/-- `Math.round`: floor of `q + 1/2` (JS rounds half toward positive
infinity). -/
def jsRound (q : ℚ) : Int := ⌊q + 1 / 2⌋

/-- `roundCost(n)`: round to 6 decimal places. -/
def roundCost (n : ℚ) : ℚ := (jsRound (n * 1000000) : ℚ) / 1000000

/-- A turn of the published session; `thinkingLevel = none` models the field
being omitted. -/
structure Turn where
  prompt : Str
  steps : List Step
  model : String
  inputTokens : ℚ
  outputTokens : ℚ
  cost : ℚ
  elapsed : Int
  thinkingLevel : Option ThinkingLevel := none
deriving DecidableEq

/-- The session header fields of the published document. -/
structure SessionMeta where
  id : String
  title : Str
  date : String
  totalCost : ℚ
deriving DecidableEq

/-- The published document. -/
structure PublishedSession where
  session : SessionMeta
  turns : List Turn
deriving DecidableEq

/-- The session header handed to the transform. -/
structure Header where
  id : String
  cwd : Str
  timestamp : String

/-- One turn built from a raw-turn chunk (triggering user message plus its
trailing messages). -/
def buildTurn (home homeReal : Str) (toolResults : List (String × Msg)) (cwd : Str)
    (chunk : List Msg) (userMsg : Msg) (thinkingLevel : Option ThinkingLevel) : Turn :=
  { prompt := textOfContent userMsg.content
    steps := chunk.flatMap (msgSteps home homeReal toolResults cwd)
    model := turnModel chunk
    inputTokens := turnInputSum chunk
    outputTokens := turnOutputSum chunk
    cost := roundCost (turnCostSum chunk)
    elapsed := jsRound ((turnMaxTs userMsg.timestamp chunk - userMsg.timestamp) / 1000)
    thinkingLevel := thinkingLevel }

/-- The results of the single entry scan: the ordered message list, the
tool-result index, and the reasoning level snapshotted at each user
message's position. The two indices are association lists built by
prepending, so `List.lookup` returns the most recent binding — the
last-write-wins behavior of `Map.set`. -/
structure ScanResult where
  msgs : List Msg
  toolResults : List (String × Msg)
  levelAtUser : List (Nat × Option ThinkingLevel)

/-- The entry scan: walk entries in order, tracking the current reasoning
level, appending message payloads, indexing tool results by call id, and
snapshotting the level at each user message's position in the message
list. -/
def scanGo (msgs : List Msg) (results : List (String × Msg))
    (level : Option ThinkingLevel) (lat : List (Nat × Option ThinkingLevel)) :
    List BranchEntry → ScanResult
  | [] => ⟨msgs, results, lat⟩
  | BranchEntry.thinkingLevelChange l :: es => scanGo msgs results (some l) lat es
  | BranchEntry.message m :: es =>
    scanGo (msgs ++ [m])
      (if m.role = Role.toolResult then
        match m.toolCallId with
        | some i => (i, m) :: results
        | none => results
      else results)
      level
      (if m.role = Role.user then (msgs.length, level) :: lat else lat)
      es
  | BranchEntry.other :: es => scanGo msgs results level lat es

/-- Entry scan from the initial state. -/
def scanEntries (entries : List BranchEntry) : ScanResult :=
  scanGo [] [] none [] entries

/-- The raw-turn split: a new chunk starts at every user message; the chunk
records the index (in the message list) of the user message it was opened
at, `none` for the leading chunk of messages before the first user
message. -/
def splitTurnsGo (i : Nat) (cur : List Msg) (curIdx : Option Nat) :
    List Msg → List (Option Nat × List Msg)
  | [] => if cur = [] then [] else [(curIdx, cur)]
  | m :: ms =>
    if m.role = Role.user then
      (if cur = [] then [] else [(curIdx, cur)]) ++ splitTurnsGo (i + 1) [m] (some i) ms
    else splitTurnsGo (i + 1) (cur ++ [m]) curIdx ms

/-- Split a message list into raw turns. -/
def splitTurns (msgs : List Msg) : List (Option Nat × List Msg) :=
  splitTurnsGo 0 [] none msgs

/-- `thinkingLevelAtUser.get(userIndex)`: absent keys and stored `undefined`
both come back as `undefined`. -/
def chunkLevel (lat : List (Nat × Option ThinkingLevel)) : Option Nat → Option ThinkingLevel
  | some i => (lat.lookup i).join
  | none => none

/-- One step of the turn-building loop: skip a raw turn not headed by a
user message; otherwise append its built `Turn` and add its unrounded cost
sum to the running total. -/
def turnFoldStep (home homeReal : Str) (toolResults : List (String × Msg)) (cwd : Str)
    (lat : List (Nat × Option ThinkingLevel))
    (acc : List Turn × ℚ) (chunk : Option Nat × List Msg) : List Turn × ℚ :=
  match chunk.2 with
  | [] => acc
  | userMsg :: _ =>
    if userMsg.role = Role.user then
      (acc.1 ++ [buildTurn home homeReal toolResults cwd chunk.2 userMsg
          (chunkLevel lat chunk.1)],
        acc.2 + turnCostSum chunk.2)
    else acc

/-- `buildPublishedSession(header, entries, title)` from the source: scan
the entries, split into raw turns, build one `Turn` per user-headed chunk
while accumulating the unrounded total cost, and assemble the document. -/
def buildPublishedSession (home homeReal : Str) (header : Header)
    (entries : List BranchEntry) (title : Str) : PublishedSession :=
  let cwd := header.cwd
  let s := scanEntries entries
  let acc :=
    (splitTurns s.msgs).foldl
      (turnFoldStep home homeReal s.toolResults cwd s.levelAtUser) ([], 0)
  { session :=
      { id := header.id
        title := title
        date := header.timestamp
        totalCost := roundCost acc.2 }
    turns := acc.1 }

-- === Theorems: C3, C4, C10 ===

/-- A `toolCall` block yields exactly one Action step, in the position of
the call within its content sequence. -/
theorem stepsOfBlocks_toolCall_position (home homeReal : Str)
    (toolResults : List (String × Msg)) (cwd : Str) (id name : String) (args : Args)
    (pre post : List Block) :
    stepsOfBlocks home homeReal toolResults cwd (pre ++ Block.toolCall id name args :: post)
      = stepsOfBlocks home homeReal toolResults cwd pre
        ++ Step.tool (buildToolStep home homeReal toolResults cwd id name args)
          :: stepsOfBlocks home homeReal toolResults cwd post := by
  simp [stepsOfBlocks, List.filterMap_append, List.filterMap_cons, stepOfBlock]

/-- C3: an Action step carries an output field only when a correlated result
exists whose text content is non-empty and the result carries the error flag
or the tool is `bash`; a successful non-bash action never carries output. -/
theorem toolStep_output_policy (home homeReal : Str) (toolResults : List (String × Msg))
    (cwd : Str) (id name : String) (args : Args) :
    (∀ o, (buildToolStep home homeReal toolResults cwd id name args).output = some o →
      ∃ r, toolResults.lookup id = some r
        ∧ (∃ rbs, r.content = ContentVal.blocks rbs
            ∧ extractTextContent rbs ≠ []
            ∧ o = truncateOutput (extractTextContent rbs))
        ∧ (r.isError = true ∨ name = "bash"))
    ∧ (∀ r, toolResults.lookup id = some r → r.isError = false → name ≠ "bash" →
        (buildToolStep home homeReal toolResults cwd id name args).output = none) := by
  constructor
  · intro o ho
    simp only [buildToolStep] at ho
    cases hr : toolResults.lookup id with
    | none => rw [hr] at ho; exact absurd ho (by simp)
    | some r =>
      rw [hr] at ho
      dsimp only at ho
      refine ⟨r, rfl, ?_⟩
      by_cases hcond : r.isError = true ∨ name = "bash"
      · rw [if_pos hcond] at ho
        refine ⟨?_, hcond⟩
        cases hc : r.content with
        | blocks rbs =>
          rw [hc] at ho
          dsimp only at ho
          by_cases hne : extractTextContent rbs ≠ []
          · rw [if_pos hne] at ho
            exact ⟨rbs, rfl, hne, (Option.some.injEq _ _ ▸ ho).symm⟩
          · rw [if_neg hne] at ho
            exact absurd ho (by simp)
        | str s => rw [hc] at ho; dsimp only at ho; exact absurd ho (by simp)
        | other => rw [hc] at ho; dsimp only at ho; exact absurd ho (by simp)
      · rw [if_neg hcond] at ho
        exact absurd ho (by simp)
  · intro r hr herr hbash
    simp only [buildToolStep, hr]
    rw [if_neg]
    intro hcond
    rcases hcond with h | h
    · rw [herr] at h; exact Bool.noConfusion h
    · exact hbash h

/-- A successful tool-result message with non-empty text content, used by
the C3 witness. -/
def c3ResultMsg : Msg :=
  { role := Role.toolResult
    content := ContentVal.blocks [Block.text "data".toList]
    timestamp := 0 }

/-- C3 witness: a successful `read` whose result has non-empty text carries
no output field. -/
theorem toolStep_output_policy_witness :
    [("c1", c3ResultMsg)].lookup "c1" = some c3ResultMsg
    ∧ (buildToolStep [] [] [("c1", c3ResultMsg)] [] "c1" "read" []).output = none := by
  constructor
  · rfl
  · exact (toolStep_output_policy [] [] [("c1", c3ResultMsg)] []
      "c1" "read" []).2 _ rfl rfl (by decide)

/-- C4: a `toolCall` whose call id has no correlated result still yields
exactly one Action step at the call's position, with success flag `true` and
no output field. -/
theorem missing_result_optimistic (home homeReal : Str) (toolResults : List (String × Msg))
    (cwd : Str) (id name : String) (args : Args) (pre post : List Block)
    (h : toolResults.lookup id = none) :
    stepsOfBlocks home homeReal toolResults cwd (pre ++ Block.toolCall id name args :: post)
      = stepsOfBlocks home homeReal toolResults cwd pre
        ++ Step.tool (buildToolStep home homeReal toolResults cwd id name args)
          :: stepsOfBlocks home homeReal toolResults cwd post
    ∧ (buildToolStep home homeReal toolResults cwd id name args).ok = true
    ∧ (buildToolStep home homeReal toolResults cwd id name args).output = none := by
  refine ⟨stepsOfBlocks_toolCall_position home homeReal toolResults cwd id name args pre post,
    ?_, ?_⟩
  · simp [buildToolStep, h]
  · simp [buildToolStep, h]

/-- C4 witness: a dangling bash call in a one-block message. -/
theorem missing_result_optimistic_witness :
    ([] : List (String × Msg)).lookup "c1" = none
    ∧ stepsOfBlocks [] [] [] [] [Block.toolCall "c1" "bash" [("command", "ls".toList)]]
      = [Step.tool (buildToolStep [] [] [] [] "c1" "bash" [("command", "ls".toList)])]
    ∧ (buildToolStep [] [] [] [] "c1" "bash" [("command", "ls".toList)]).ok = true
    ∧ (buildToolStep [] [] [] [] "c1" "bash" [("command", "ls".toList)]).output = none := by
  have h := missing_result_optimistic [] [] [] [] "c1" "bash" [("command", "ls".toList)]
    [] [] rfl
  exact ⟨rfl, by simpa [stepsOfBlocks] using h.1, h.2.1, h.2.2⟩

/-- C10: a read/write/edit `toolCall` without a truthy path argument is
still emitted as an Action step at its position, with the empty string as
its argument summary. -/
theorem pathless_rwe_summary (home homeReal : Str) (toolResults : List (String × Msg))
    (cwd : Str) (id name : String) (args : Args) (pre post : List Block)
    (hn : name = "read" ∨ name = "write" ∨ name = "edit")
    (hp : args.lookup "path" = none ∨ args.lookup "path" = some []) :
    summarizeToolArgs home homeReal name args cwd = []
    ∧ stepsOfBlocks home homeReal toolResults cwd (pre ++ Block.toolCall id name args :: post)
      = stepsOfBlocks home homeReal toolResults cwd pre
        ++ Step.tool (buildToolStep home homeReal toolResults cwd id name args)
          :: stepsOfBlocks home homeReal toolResults cwd post
    ∧ (buildToolStep home homeReal toolResults cwd id name args).args = [] := by
  have hsum : summarizeToolArgs home homeReal name args cwd = [] := by
    rw [summarizeToolArgs, if_pos hn]
    rcases hp with hp | hp <;> simp [hp]
  refine ⟨hsum,
    stepsOfBlocks_toolCall_position home homeReal toolResults cwd id name args pre post, ?_⟩
  simp only [buildToolStep]
  exact hsum

/-- C10 witness: a `read` call with no path argument. -/
theorem pathless_rwe_summary_witness :
    ([("file", "x".toList)] : Args).lookup "path" = none
    ∧ summarizeToolArgs [] [] "read" [("file", "x".toList)] [] = []
    ∧ (buildToolStep [] [] [] [] "c9" "read" [("file", "x".toList)]).args = [] := by
  have h := pathless_rwe_summary [] [] [] [] "c9" "read" [("file", "x".toList)] [] []
    (Or.inl rfl) (Or.inl rfl)
  exact ⟨rfl, h.1, h.2.2⟩

-- === Turn segmentation and scan lemmas (for C2, C5, C6) ===

/-- Whether a message's role is `user`, as a boolean. -/
def isUserB (m : Msg) : Bool := decide (m.role = Role.user)

/-- Whether a chunk of messages is headed by a user message. -/
def userHeaded : List Msg → Bool
  | [] => false
  | m :: _ => isUserB m

/-- Whether a branch entry is a user-role message entry. -/
def isUserEntryB : BranchEntry → Bool
  | BranchEntry.message m => isUserB m
  | _ => false

/-- The message payload of a `message` entry. -/
def entryMsg? : BranchEntry → Option Msg
  | BranchEntry.message m => some m
  | _ => none

/-- The level of a `thinking_level_change` entry. -/
def tlcLevel? : BranchEntry → Option ThinkingLevel
  | BranchEntry.thinkingLevelChange l => some l
  | _ => none

/-- The positions (counting from `i`) of the user messages of a list. -/
def userIdxs (i : Nat) : List Msg → List Nat
  | [] => []
  | m :: ms => if isUserB m then i :: userIdxs (i + 1) ms else userIdxs (i + 1) ms

/-- The reasoning level in force at each user message, in order: the level
of the last preceding thinking-level-change entry, starting from `lvl`. -/
def userLevelsSpec (lvl : Option ThinkingLevel) : List BranchEntry → List (Option ThinkingLevel)
  | [] => []
  | BranchEntry.thinkingLevelChange l :: es => userLevelsSpec (some l) es
  | BranchEntry.message m :: es =>
    if isUserB m then lvl :: userLevelsSpec lvl es else userLevelsSpec lvl es
  | BranchEntry.other :: es => userLevelsSpec lvl es

/-- The reasoning level after processing `pre`, starting from `lvl`: the
last thinking-level-change level of `pre` when there is one. -/
def levelAfter (lvl : Option ThinkingLevel) (pre : List BranchEntry) : Option ThinkingLevel :=
  match (pre.filterMap tlcLevel?).getLast? with
  | some l => some l
  | none => lvl

/-- The turn built from a raw-turn chunk (only user-headed, hence
non-empty, chunks are ever mapped; the empty case is a dummy). -/
def chunkTurn (home homeReal : Str) (toolResults : List (String × Msg)) (cwd : Str)
    (lat : List (Nat × Option ThinkingLevel)) (c : Option Nat × List Msg) : Turn :=
  match c.2 with
  | u :: _ => buildTurn home homeReal toolResults cwd c.2 u (chunkLevel lat c.1)
  | [] =>
    { prompt := [], steps := [], model := "", inputTokens := 0, outputTokens := 0,
      cost := 0, elapsed := 0 }

theorem userHeaded_append_singleton (cur : List Msg) (m : Msg) (h : isUserB m = false) :
    userHeaded (cur ++ [m]) = userHeaded cur := by
  cases cur with
  | nil => simp [userHeaded, h]
  | cons c t => simp [userHeaded]

/-- Counting user-headed chunks of the split: one per user message, plus one
for a pending user-headed accumulator. -/
theorem splitTurnsGo_countP (rest : List Msg) :
    ∀ (i : Nat) (cur : List Msg) (idx : Option Nat),
      (splitTurnsGo i cur idx rest).countP (fun c => userHeaded c.2)
        = rest.countP isUserB + (if userHeaded cur = true then 1 else 0) := by
  induction rest with
  | nil =>
    intro i cur idx
    by_cases h : cur = []
    · subst h
      simp [splitTurnsGo, userHeaded]
    · simp [splitTurnsGo, h, List.countP_cons, List.countP_nil]
  | cons m ms ih =>
    intro i cur idx
    by_cases hu : m.role = Role.user
    · rw [splitTurnsGo, if_pos hu, List.countP_append, ih]
      have hm : isUserB m = true := by simp [isUserB, hu]
      have h1 : userHeaded [m] = true := by simp [userHeaded, hm]
      rw [h1, List.countP_cons, hm]
      by_cases h : cur = []
      · subst h
        simp [userHeaded]
      · simp [h, List.countP_cons, List.countP_nil]
        omega
    · rw [splitTurnsGo, if_neg hu, ih]
      have hm : isUserB m = false := by simp [isUserB, hu]
      rw [userHeaded_append_singleton cur m hm, List.countP_cons, hm]
      simp

/-- Joining the user-headed chunks of the split recovers the messages from
the first user message on (a pending user-headed accumulator contributes its
messages plus the non-user messages it still absorbs). -/
theorem splitTurnsGo_join (rest : List Msg) :
    ∀ (i : Nat) (cur : List Msg) (idx : Option Nat),
      (((splitTurnsGo i cur idx rest).filter (fun c => userHeaded c.2)).map (·.2)).flatten
        = (if userHeaded cur = true then cur ++ rest.takeWhile (fun m => !isUserB m) else [])
          ++ rest.dropWhile (fun m => !isUserB m) := by
  induction rest with
  | nil =>
    intro i cur idx
    by_cases h : cur = []
    · subst h
      simp [splitTurnsGo, userHeaded]
    · rw [splitTurnsGo, if_neg h]
      by_cases hh : userHeaded cur = true
      · simp [List.filter, hh]
      · simp [List.filter, hh]
  | cons m ms ih =>
    intro i cur idx
    by_cases hu : m.role = Role.user
    · have hm : isUserB m = true := by simp [isUserB, hu]
      rw [splitTurnsGo, if_pos hu, List.filter_append, List.map_append, List.flatten_append, ih]
      have h1 : userHeaded [m] = true := by simp [userHeaded, hm]
      have htd := List.takeWhile_append_dropWhile (p := fun m => !isUserB m) (l := ms)
      by_cases h : cur = []
      · subst h
        simp [userHeaded, h1, hm, htd, List.takeWhile_cons, List.dropWhile_cons]
      · by_cases hh : userHeaded cur = true
        · simp [List.filter, h1, hh, h, hm, htd, List.takeWhile_cons, List.dropWhile_cons]
        · simp [List.filter, h1, hh, h, hm, htd, List.takeWhile_cons, List.dropWhile_cons]
    · have hm : isUserB m = false := by simp [isUserB, hu]
      rw [splitTurnsGo, if_neg hu, ih]
      rw [userHeaded_append_singleton cur m hm]
      by_cases hh : userHeaded cur = true
      · cases cur with
        | nil => simp [userHeaded] at hh
        | cons c t =>
          simp [hh, hm, List.takeWhile_cons, List.dropWhile_cons]
      · simp [hh, hm, List.takeWhile_cons, List.dropWhile_cons]

/-- Every chunk of the split is non-empty and contains no user message after
its head (provided the pending accumulator already satisfies that). -/
theorem splitTurnsGo_shape (rest : List Msg) :
    ∀ (i : Nat) (cur : List Msg) (idx : Option Nat),
      cur.tail.all (fun m => !isUserB m) = true →
      ∀ c ∈ splitTurnsGo i cur idx rest,
        c.2 ≠ [] ∧ c.2.tail.all (fun m => !isUserB m) = true := by
  induction rest with
  | nil =>
    intro i cur idx hcur c hc
    by_cases h : cur = []
    · subst h
      simp [splitTurnsGo] at hc
    · rw [splitTurnsGo, if_neg h] at hc
      simp at hc
      subst hc
      exact ⟨h, hcur⟩
  | cons m ms ih =>
    intro i cur idx hcur c hc
    by_cases hu : m.role = Role.user
    · rw [splitTurnsGo, if_pos hu] at hc
      rw [List.mem_append] at hc
      rcases hc with hc | hc
      · by_cases h : cur = []
        · subst h
          simp at hc
        · rw [if_neg h] at hc
          simp at hc
          subst hc
          exact ⟨h, hcur⟩
      · exact ih (i + 1) [m] (some i) (by simp) c hc
    · rw [splitTurnsGo, if_neg hu] at hc
      have hm : isUserB m = false := by simp [isUserB, hu]
      refine ih (i + 1) (cur ++ [m]) idx ?_ c hc
      cases cur with
      | nil => simp [hm]
      | cons a t =>
        simp only [List.cons_append, List.tail_cons, List.all_append] at hcur ⊢
        simp [hcur, hm]

/-- The chunk indices recorded for user-headed chunks are exactly the
positions of the user messages. -/
theorem splitTurnsGo_idxs (rest : List Msg) :
    ∀ (i : Nat) (cur : List Msg) (idx : Option Nat),
      ((splitTurnsGo i cur idx rest).filter (fun c => userHeaded c.2)).map (·.1)
        = (if userHeaded cur = true then [idx] else []) ++ (userIdxs i rest).map some := by
  induction rest with
  | nil =>
    intro i cur idx
    by_cases h : cur = []
    · subst h
      simp [splitTurnsGo, userHeaded, userIdxs]
    · rw [splitTurnsGo, if_neg h]
      by_cases hh : userHeaded cur = true
      · simp [List.filter, hh, userIdxs]
      · simp [List.filter, hh, userIdxs]
  | cons m ms ih =>
    intro i cur idx
    by_cases hu : m.role = Role.user
    · have hm : isUserB m = true := by simp [isUserB, hu]
      rw [splitTurnsGo, if_pos hu, List.filter_append, List.map_append, ih]
      have h1 : userHeaded [m] = true := by simp [userHeaded, hm]
      rw [userIdxs, if_pos hm, h1]
      by_cases h : cur = []
      · subst h
        simp [userHeaded]
      · by_cases hh : userHeaded cur = true
        · simp [List.filter, hh, h]
        · simp [List.filter, hh, h]
    · have hm : isUserB m = false := by simp [isUserB, hu]
      rw [splitTurnsGo, if_neg hu, ih, userHeaded_append_singleton cur m hm, userIdxs]
      simp [hm]

/-- A split of a list ending in a user message ends with the one-message
chunk of that user message, indexed by its position. -/
theorem splitTurnsGo_trailing_user (rest : List Msg) :
    ∀ (i : Nat) (cur : List Msg) (idx : Option Nat) (u : Msg), u.role = Role.user →
      (splitTurnsGo i cur idx (rest ++ [u])).getLast? = some (some (i + rest.length), [u]) := by
  induction rest with
  | nil =>
    intro i cur idx u hu
    rw [List.nil_append, splitTurnsGo, if_pos hu]
    rw [splitTurnsGo]
    simp
  | cons m ms ih =>
    intro i cur idx u hu
    rw [List.cons_append, splitTurnsGo]
    by_cases hm : m.role = Role.user
    · rw [if_pos hm]
      have htail := ih (i + 1) [m] (some i) u hu
      have hne : splitTurnsGo (i + 1) [m] (some i) (ms ++ [u]) ≠ [] := by
        intro h0
        rw [h0] at htail
        simp at htail
      rw [List.getLast?_append_of_ne_nil _ hne, htail]
      simp
      omega
    · rw [if_neg hm]
      have htail := ih (i + 1) (cur ++ [m]) idx u hu
      rw [htail]
      simp
      omega

/-- The scan collects exactly the message payloads, in order. -/
theorem scanGo_msgs (es : List BranchEntry) :
    ∀ (msgs : List Msg) (results : List (String × Msg)) (level : Option ThinkingLevel)
      (lat : List (Nat × Option ThinkingLevel)),
      (scanGo msgs results level lat es).msgs = msgs ++ es.filterMap entryMsg? := by
  induction es with
  | nil =>
    intro msgs results level lat
    simp [scanGo]
  | cons e es ih =>
    intro msgs results level lat
    cases e with
    | message m => rw [scanGo, ih]; simp [entryMsg?, List.filterMap_cons]
    | thinkingLevelChange l => rw [scanGo, ih]; simp [entryMsg?, List.filterMap_cons]
    | other => rw [scanGo, ih]; simp [entryMsg?, List.filterMap_cons]

/-- Counting user messages among the collected payloads counts the user
message entries. -/
theorem countP_user_filterMap (es : List BranchEntry) :
    (es.filterMap entryMsg?).countP isUserB = es.countP isUserEntryB := by
  induction es with
  | nil => rfl
  | cons e es ih =>
    cases e with
    | message m => simp [List.filterMap_cons, entryMsg?, List.countP_cons, ih, isUserEntryB]
    | thinkingLevelChange l =>
      simp [List.filterMap_cons, entryMsg?, List.countP_cons, ih, isUserEntryB]
    | other => simp [List.filterMap_cons, entryMsg?, List.countP_cons, ih, isUserEntryB]

/-- The level-at-user index built by the scan: the user positions zipped
with the levels in force, most recent first, in front of the initial
index. -/
theorem scanGo_levelAtUser (es : List BranchEntry) :
    ∀ (msgs : List Msg) (results : List (String × Msg)) (level : Option ThinkingLevel)
      (lat : List (Nat × Option ThinkingLevel)),
      (scanGo msgs results level lat es).levelAtUser
        = ((userIdxs msgs.length (es.filterMap entryMsg?)).zip (userLevelsSpec level es)).reverse
          ++ lat := by
  induction es with
  | nil =>
    intro msgs results level lat
    simp [scanGo, userIdxs, userLevelsSpec]
  | cons e es ih =>
    intro msgs results level lat
    cases e with
    | message m =>
      rw [scanGo, ih]
      rw [List.filterMap_cons]
      simp only [entryMsg?]
      rw [userLevelsSpec, userIdxs]
      by_cases hm : isUserB m = true
      · have hr : m.role = Role.user := by
          simpa [isUserB] using hm
        rw [if_pos hm, if_pos hm, if_pos hr]
        simp [List.zip_cons_cons]
      · have hr : ¬ m.role = Role.user := by
          simpa [isUserB] using hm
        rw [if_neg hm, if_neg hm, if_neg hr]
        simp
    | thinkingLevelChange l =>
      rw [scanGo, ih]
      simp [List.filterMap_cons, entryMsg?, userLevelsSpec]
    | other =>
      rw [scanGo, ih]
      simp [List.filterMap_cons, entryMsg?, userLevelsSpec]

/-- Every position recorded by `userIdxs i` is at least `i`. -/
theorem userIdxs_ge (msgs : List Msg) :
    ∀ (i : Nat), ∀ x ∈ userIdxs i msgs, i ≤ x := by
  induction msgs with
  | nil => intro i x hx; simp [userIdxs] at hx
  | cons m ms ih =>
    intro i x hx
    rw [userIdxs] at hx
    by_cases hm : isUserB m = true
    · rw [if_pos hm] at hx
      rcases List.mem_cons.mp hx with h | h
      · omega
      · have := ih (i + 1) x h
        omega
    · rw [if_neg hm] at hx
      have := ih (i + 1) x hx
      omega

/-- The user positions are distinct. -/
theorem userIdxs_nodup (msgs : List Msg) : ∀ (i : Nat), (userIdxs i msgs).Nodup := by
  induction msgs with
  | nil => intro i; simp [userIdxs]
  | cons m ms ih =>
    intro i
    rw [userIdxs]
    by_cases hm : isUserB m = true
    · rw [if_pos hm]
      refine List.nodup_cons.mpr ⟨?_, ih (i + 1)⟩
      intro hmem
      have := userIdxs_ge ms (i + 1) i hmem
      omega
    · rw [if_neg hm]
      exact ih (i + 1)

/-- `userIdxs` and `userLevelsSpec` have the same length: one entry per user
message. -/
theorem userIdxs_length (msgs : List Msg) :
    ∀ (i : Nat), (userIdxs i msgs).length = msgs.countP isUserB := by
  induction msgs with
  | nil => intro i; simp [userIdxs]
  | cons m ms ih =>
    intro i
    rw [userIdxs, List.countP_cons]
    by_cases hm : isUserB m = true
    · simp [hm, ih]
    · simp [hm, ih]

theorem userLevelsSpec_length (es : List BranchEntry) :
    ∀ (lvl : Option ThinkingLevel),
      (userLevelsSpec lvl es).length = (es.filterMap entryMsg?).countP isUserB := by
  induction es with
  | nil => intro lvl; simp [userLevelsSpec]
  | cons e es ih =>
    intro lvl
    cases e with
    | message m =>
      rw [userLevelsSpec]
      simp only [List.filterMap_cons, entryMsg?, List.countP_cons]
      by_cases hm : isUserB m = true
      · simp [hm, ih]
      · simp [hm, ih]
    | thinkingLevelChange l =>
      rw [userLevelsSpec]
      simp [List.filterMap_cons, entryMsg?, ih]
    | other =>
      rw [userLevelsSpec]
      simp [List.filterMap_cons, entryMsg?, ih]

/-- In an association list with distinct keys, lookup finds any member. -/
theorem lookup_of_mem_nodup {α : Type} [DecidableEq α] {β : Type} (ps : List (α × β))
    (hnd : (ps.map Prod.fst).Nodup) (k : α) (v : β) (hmem : (k, v) ∈ ps) :
    ps.lookup k = some v := by
  induction ps with
  | nil => simp at hmem
  | cons p t ih =>
    cases p with
    | mk k' v' =>
      rcases List.mem_cons.mp hmem with h | h
      · rw [Prod.mk.injEq] at h
        obtain ⟨h1, h2⟩ := h
        subst h1
        subst h2
        rw [List.lookup_cons_self]
      · have hk : k ≠ k' := by
          intro he
          rw [List.map_cons, List.nodup_cons] at hnd
          have hmm : k ∈ t.map Prod.fst := List.mem_map_of_mem Prod.fst h
          rw [he] at hmm
          exact hnd.1 hmm
        have hbeq : (k == k') = false := by
          simp [hk]
        rw [List.lookup_cons, hbeq]
        exact ih (by
          rw [List.map_cons, List.nodup_cons] at hnd
          exact hnd.2) h

/-- The turn-building fold appends one `Turn` per user-headed chunk, in
order, and accumulates their unrounded cost sums. -/
theorem foldl_turnFoldStep (home homeReal : Str) (toolResults : List (String × Msg))
    (cwd : Str) (lat : List (Nat × Option ThinkingLevel))
    (chunks : List (Option Nat × List Msg)) :
    ∀ (ts : List Turn) (q : ℚ),
      chunks.foldl (turnFoldStep home homeReal toolResults cwd lat) (ts, q)
        = (ts ++ (chunks.filter (fun c => userHeaded c.2)).map
              (chunkTurn home homeReal toolResults cwd lat),
           q + ((chunks.filter (fun c => userHeaded c.2)).map (fun c => turnCostSum c.2)).sum) := by
  induction chunks with
  | nil =>
    intro ts q
    simp
  | cons c cs ih =>
    intro ts q
    obtain ⟨cidx, cmsgs⟩ := c
    rw [List.foldl_cons]
    cases cmsgs with
    | nil =>
      rw [show turnFoldStep home homeReal toolResults cwd lat (ts, q) (cidx, []) = (ts, q)
        from rfl]
      rw [ih]
      simp [List.filter_cons, userHeaded]
    | cons u rest =>
      by_cases hu : u.role = Role.user
      · have hub : isUserB u = true := by simp [isUserB, hu]
        have hstep : turnFoldStep home homeReal toolResults cwd lat (ts, q) (cidx, u :: rest)
            = (ts ++ [buildTurn home homeReal toolResults cwd (u :: rest) u (chunkLevel lat cidx)],
               q + turnCostSum (u :: rest)) := by
          rw [turnFoldStep]
          dsimp only
          rw [if_pos hu]
        rw [hstep, ih]
        simp only [List.filter_cons, userHeaded, hub, if_true, List.map_cons, List.sum_cons]
        rw [Prod.mk.injEq]
        constructor
        · simp [chunkTurn]
        · ring
      · have hub : isUserB u = false := by simp [isUserB, hu]
        have hstep : turnFoldStep home homeReal toolResults cwd lat (ts, q) (cidx, u :: rest)
            = (ts, q) := by
          rw [turnFoldStep]
          dsimp only
          rw [if_neg hu]
        rw [hstep, ih]
        simp [List.filter_cons, userHeaded, hub]

/-- The document's turn list: one built turn per user-headed chunk. -/
theorem buildPublishedSession_turns (home homeReal : Str) (header : Header)
    (entries : List BranchEntry) (title : Str) :
    (buildPublishedSession home homeReal header entries title).turns
      = ((splitTurns (scanEntries entries).msgs).filter (fun c => userHeaded c.2)).map
          (chunkTurn home homeReal (scanEntries entries).toolResults header.cwd
            (scanEntries entries).levelAtUser) := by
  rw [buildPublishedSession]
  rw [foldl_turnFoldStep]
  simp

/-- The document's total cost: the unrounded per-turn cost sums are summed
first and rounded once. -/
theorem buildPublishedSession_totalCost (home homeReal : Str) (header : Header)
    (entries : List BranchEntry) (title : Str) :
    (buildPublishedSession home homeReal header entries title).session.totalCost
      = roundCost ((((splitTurns (scanEntries entries).msgs).filter
          (fun c => userHeaded c.2)).map (fun c => turnCostSum c.2)).sum) := by
  rw [buildPublishedSession]
  rw [foldl_turnFoldStep]
  simp

/-- Filtering and mapping preserve the last element when it passes the
filter. -/
theorem getLast?_filter_map {α β : Type} (p : α → Bool) (f : α → β) :
    ∀ (l : List α) (a : α), l.getLast? = some a → p a = true →
      ((l.filter p).map f).getLast? = some (f a) := by
  intro l
  induction l with
  | nil => intro a hl _; simp at hl
  | cons x xs ih =>
    intro a hl hp
    cases hxs : xs with
    | nil =>
      subst hxs
      simp at hl
      subst hl
      simp [List.filter_cons, hp]
    | cons y ys =>
      subst hxs
      rw [List.getLast?_cons_cons] at hl
      have htail := ih a hl hp
      have hne : ((y :: ys).filter p).map f ≠ [] := by
        intro h0
        rw [h0] at htail
        simp at htail
      rw [List.filter_cons]
      by_cases hx : p x = true
      · rw [if_pos hx, List.map_cons,
          show f x :: ((y :: ys).filter p).map f = [f x] ++ ((y :: ys).filter p).map f from rfl,
          List.getLast?_append_of_ne_nil _ hne]
        exact htail
      · rw [if_neg hx]
        exact htail

-- === Theorems: C2 ===

/-- C2: the turns partition the message list. (1) The number of turns is
the number of user-role message entries in the log. (2) Joining the
user-headed raw turns in order recovers the message list from its first
user message on — every message from there belongs to exactly one raw turn,
the one opened by the most recent preceding user message, and messages
before the first user message appear in no turn. (3) Every raw-turn chunk
is non-empty and has no user message after its head. (4) A log ending with
a user message still yields a final turn, with an empty step list. -/
theorem turn_partition (home homeReal : Str) (header : Header)
    (entries : List BranchEntry) (title : Str) :
    (buildPublishedSession home homeReal header entries title).turns.length
        = entries.countP isUserEntryB
    ∧ (∀ msgs : List Msg,
        (((splitTurns msgs).filter (fun c => userHeaded c.2)).map (·.2)).flatten
          = msgs.dropWhile (fun m => !isUserB m))
    ∧ (∀ msgs : List Msg, ∀ c ∈ splitTurns msgs,
        c.2 ≠ [] ∧ c.2.tail.all (fun m => !isUserB m) = true)
    ∧ (∀ (pre : List BranchEntry) (u : Msg), u.role = Role.user →
        ∃ t : Turn,
          (buildPublishedSession home homeReal header (pre ++ [BranchEntry.message u])
              title).turns.getLast? = some t
          ∧ t.steps = []) := by
  refine ⟨?_, ?_, ?_, ?_⟩
  · rw [buildPublishedSession_turns, List.length_map, ← List.countP_eq_length_filter,
      splitTurns, splitTurnsGo_countP]
    rw [show (scanEntries entries).msgs = entries.filterMap entryMsg? from by
      rw [scanEntries, scanGo_msgs]
      simp]
    rw [countP_user_filterMap]
    simp [userHeaded]
  · intro msgs
    rw [splitTurns, splitTurnsGo_join]
    simp [userHeaded]
  · intro msgs c hc
    exact splitTurnsGo_shape msgs 0 [] none (by simp) c hc
  · intro pre u hu
    have hmsgs : (scanEntries (pre ++ [BranchEntry.message u])).msgs
        = (pre.filterMap entryMsg?) ++ [u] := by
      rw [scanEntries, scanGo_msgs]
      simp [List.filterMap_append, List.filterMap_cons, entryMsg?]
    have hlast : (splitTurns ((pre.filterMap entryMsg?) ++ [u])).getLast?
        = some (some (pre.filterMap entryMsg?).length, [u]) := by
      rw [splitTurns]
      have h := splitTurnsGo_trailing_user (pre.filterMap entryMsg?) 0 [] none u hu
      simpa using h
    refine ⟨chunkTurn home homeReal (scanEntries (pre ++ [BranchEntry.message u])).toolResults
      header.cwd (scanEntries (pre ++ [BranchEntry.message u])).levelAtUser
      (some (pre.filterMap entryMsg?).length, [u]), ?_, ?_⟩
    · rw [buildPublishedSession_turns, hmsgs]
      exact getLast?_filter_map _ _ _ _ hlast (by simp [userHeaded, isUserB, hu])
    · simp [chunkTurn, buildTurn, msgSteps, hu]

/-- Concrete user message and header used by witnesses. -/
def wUser : Msg := { role := Role.user, content := ContentVal.str "hi".toList, timestamp := 0 }

/-- Concrete header used by witnesses. -/
def wHeader : Header := { id := "s", cwd := [], timestamp := "d" }

/-- C2 witness: a log of one user message yields one turn; the final turn of
a log ending in a user message has no steps. -/
theorem turn_partition_witness :
    (buildPublishedSession [] [] wHeader [BranchEntry.message wUser] []).turns.length
        = [BranchEntry.message wUser].countP isUserEntryB
    ∧ (((splitTurns [wUser]).filter (fun c => userHeaded c.2)).map (·.2)).flatten
        = [wUser].dropWhile (fun m => !isUserB m)
    ∧ ((some 0, [wUser]) : Option Nat × List Msg).2 ≠ []
    ∧ (∃ t : Turn,
        (buildPublishedSession [] [] wHeader ([] ++ [BranchEntry.message wUser]) []).turns.getLast?
          = some t ∧ t.steps = []) := by
  have h := turn_partition [] [] wHeader [BranchEntry.message wUser] []
  exact ⟨h.1, h.2.1 [wUser], (h.2.2.1 [wUser] (some 0, [wUser]) (by decide)).1,
    h.2.2.2 [] wUser rfl⟩

-- === Theorems: C6 ===

/-- The published per-turn costs: each user-headed chunk's unrounded cost
sum, rounded at emission. -/
theorem buildPublishedSession_costs (home homeReal : Str) (header : Header)
    (entries : List BranchEntry) (title : Str) :
    (buildPublishedSession home homeReal header entries title).turns.map Turn.cost
      = ((splitTurns (scanEntries entries).msgs).filter (fun c => userHeaded c.2)).map
          (fun c => roundCost (turnCostSum c.2)) := by
  rw [buildPublishedSession_turns, List.map_map]
  refine List.map_congr_left ?_
  intro c hc
  obtain ⟨ci, cl⟩ := c
  cases cl with
  | nil =>
    have hh := List.of_mem_filter hc
    simp [userHeaded] at hh
  | cons u rest =>
    simp [Function.comp, chunkTurn, buildTurn]

/-- C6 (amended): each turn's emitted cost is the sum of its assistant
messages' usage cost totals rounded to 6 decimal places, while the
document's totalCost is the sum of the turns' UNROUNDED cost sums, rounded
once to 6 decimals — not the re-rounded sum of the already-rounded per-turn
costs the claim describes. -/
theorem cost_rounding_amended (home homeReal : Str) (header : Header)
    (entries : List BranchEntry) (title : Str) :
    (buildPublishedSession home homeReal header entries title).turns.map Turn.cost
      = ((splitTurns (scanEntries entries).msgs).filter (fun c => userHeaded c.2)).map
          (fun c => roundCost (turnCostSum c.2))
    ∧ (buildPublishedSession home homeReal header entries title).session.totalCost
      = roundCost ((((splitTurns (scanEntries entries).msgs).filter
          (fun c => userHeaded c.2)).map (fun c => turnCostSum c.2)).sum) :=
  ⟨buildPublishedSession_costs home homeReal header entries title,
   buildPublishedSession_totalCost home homeReal header entries title⟩

/-- The usage record of the C6 counterexample: cost total 0.0000004. -/
def c6Usage : Usage :=
  { input := none, output := none, cost := some { total := some (1 / 2500000) } }

/-- The assistant message of the C6 counterexample. -/
def c6Asst : Msg :=
  { role := Role.assistant, content := ContentVal.blocks [], timestamp := 0,
    usage := some c6Usage }

/-- The C6 counterexample log: two turns costing 0.0000004 each. -/
def c6Entries : List BranchEntry :=
  [BranchEntry.message wUser, BranchEntry.message c6Asst,
   BranchEntry.message wUser, BranchEntry.message c6Asst]

theorem c6_msgs : (scanEntries c6Entries).msgs = [wUser, c6Asst, wUser, c6Asst] := by
  rw [scanEntries, scanGo_msgs]
  simp [c6Entries, entryMsg?, List.filterMap_cons]

theorem c6_chunk_costs :
    ((splitTurns [wUser, c6Asst, wUser, c6Asst]).filter (fun c => userHeaded c.2)).map
        (fun c => turnCostSum c.2) = [1 / 2500000, 1 / 2500000] := by
  norm_num [splitTurns, splitTurnsGo, wUser, c6Asst, c6Usage, userHeaded, isUserB,
    turnCostSum, usageCostTotal, List.filter, Option.bind, UsageCost.total,
    show decide (Role.user = Role.assistant) = false from rfl,
    show decide (Role.assistant = Role.assistant) = true from rfl]

/-- C6 counterexample: both turn costs round to 0, so the claim's
"sum of rounded costs, rounded again" is 0; the source instead rounds the
sum of the unrounded costs and publishes 0.000001. -/
theorem totalCost_claim_counterexample :
    (buildPublishedSession [] [] wHeader c6Entries []).session.totalCost
      ≠ roundCost (((buildPublishedSession [] [] wHeader c6Entries []).turns.map
          Turn.cost).sum) := by
  have htot : (buildPublishedSession [] [] wHeader c6Entries []).session.totalCost
      = 1 / 1000000 := by
    rw [buildPublishedSession_totalCost, c6_msgs, c6_chunk_costs]
    norm_num [roundCost, jsRound]
  have hcosts : (buildPublishedSession [] [] wHeader c6Entries []).turns.map Turn.cost
      = [0, 0] := by
    rw [buildPublishedSession_costs, c6_msgs]
    have hmap :
        ((splitTurns [wUser, c6Asst, wUser, c6Asst]).filter (fun c => userHeaded c.2)).map
            (fun c => roundCost (turnCostSum c.2))
          = ((splitTurns [wUser, c6Asst, wUser, c6Asst]).filter (fun c => userHeaded c.2)).map
              ((fun q => roundCost q) ∘ (fun c => turnCostSum c.2)) := rfl
    rw [hmap, ← List.map_map, c6_chunk_costs]
    norm_num [roundCost, jsRound]
  rw [htot, hcosts]
  norm_num [roundCost, jsRound]

-- === Theorems: C5 ===

theorem levelAfter_tlc (lvl : Option ThinkingLevel) (l : ThinkingLevel)
    (pre : List BranchEntry) :
    levelAfter lvl (BranchEntry.thinkingLevelChange l :: pre) = levelAfter (some l) pre := by
  rw [levelAfter, levelAfter, List.filterMap_cons]
  simp only [tlcLevel?]
  cases h : (pre.filterMap tlcLevel?) with
  | nil => simp
  | cons x xs =>
    rw [List.getLast?_cons_cons]
    cases hgl : (x :: xs).getLast? with
    | some y => rfl
    | none => exact absurd hgl (by simp)

theorem levelAfter_skip (lvl : Option ThinkingLevel) (e : BranchEntry)
    (pre : List BranchEntry) (he : tlcLevel? e = none) :
    levelAfter lvl (e :: pre) = levelAfter lvl pre := by
  rw [levelAfter, levelAfter, List.filterMap_cons, he]

/-- The level resolved for the user message after `pre` is the one left by
the last thinking-level-change of `pre`. -/
theorem userLevelsSpec_pos (post : List BranchEntry) (m : Msg) (hm : isUserB m = true) :
    ∀ (pre : List BranchEntry) (lvl : Option ThinkingLevel),
      (userLevelsSpec lvl (pre ++ BranchEntry.message m :: post))[pre.countP isUserEntryB]?
        = some (levelAfter lvl pre) := by
  intro pre
  induction pre with
  | nil =>
    intro lvl
    rw [List.nil_append, userLevelsSpec, if_pos hm]
    simp [levelAfter]
  | cons e pre ih =>
    intro lvl
    cases e with
    | thinkingLevelChange l =>
      rw [List.cons_append, userLevelsSpec, List.countP_cons,
        show isUserEntryB (BranchEntry.thinkingLevelChange l) = false from rfl,
        levelAfter_tlc]
      simpa using ih (some l)
    | message m' =>
      rw [List.cons_append, userLevelsSpec, List.countP_cons,
        levelAfter_skip lvl (BranchEntry.message m') pre rfl]
      by_cases hm' : isUserB m' = true
      · rw [if_pos hm', show isUserEntryB (BranchEntry.message m') = isUserB m' from rfl, hm']
        simpa using ih lvl
      · have hmf : isUserB m' = false := by
          cases hb : isUserB m'
          · rfl
          · exact absurd hb hm'
        rw [if_neg hm', show isUserEntryB (BranchEntry.message m') = isUserB m' from rfl, hmf]
        simpa using ih lvl
    | other =>
      rw [List.cons_append, userLevelsSpec, List.countP_cons,
        show isUserEntryB BranchEntry.other = false from rfl,
        levelAfter_skip lvl BranchEntry.other pre rfl]
      simpa using ih lvl

/-- Looking every key of a key-distinct zip up in its reversed association
list recovers the values. -/
theorem map_lookup_zip_reverse (keys : List Nat) (vals : List (Option ThinkingLevel))
    (hnd : keys.Nodup) (hlen : keys.length = vals.length) :
    keys.map (fun i => ((keys.zip vals).reverse.lookup i).join) = vals := by
  refine List.ext_getElem (by simp [hlen]) ?_
  intro k hk1 hk2
  rw [List.getElem_map]
  have hkk : k < keys.length := by simpa using hk1
  have hz : (keys.zip vals)[k]? = some (keys[k], vals[k]) := by
    rw [List.getElem?_zip_eq_some]
    exact ⟨List.getElem?_eq_getElem hkk, List.getElem?_eq_getElem hk2⟩
  have hkz : k < (keys.zip vals).length := by
    rw [List.length_zip]
    omega
  have hpair : (keys.zip vals)[k] = (keys[k], vals[k]) := by
    rw [List.getElem?_eq_getElem hkz] at hz
    exact Option.some.inj hz
  have hmem : (keys[k], vals[k]) ∈ (keys.zip vals).reverse := by
    rw [List.mem_reverse, ← hpair]
    exact List.getElem_mem hkz
  have hndr : (((keys.zip vals).reverse).map Prod.fst).Nodup := by
    rw [List.map_reverse]
    refine List.nodup_reverse.mpr ?_
    rw [List.map_fst_zip keys vals (by omega)]
    exact hnd
  rw [lookup_of_mem_nodup _ hndr _ _ hmem]
  simp [Option.join]

/-- C5: turn `k`'s resolved reasoning level is the level of the last
thinking-level-change entry before the `(k+1)`-th user message in entry
order (carrying forward across turns), and the field is omitted (`none`)
when no thinking-level-change entry precedes that user message. -/
theorem thinking_level_resolution (home homeReal : Str) (header : Header)
    (entries : List BranchEntry) (title : Str) :
    (buildPublishedSession home homeReal header entries title).turns.map Turn.thinkingLevel
        = userLevelsSpec none entries
    ∧ (∀ (pre post : List BranchEntry) (m : Msg), isUserB m = true →
        (userLevelsSpec none (pre ++ BranchEntry.message m :: post))[pre.countP isUserEntryB]?
          = some ((pre.filterMap tlcLevel?).getLast?)) := by
  constructor
  · have hmsgs : (scanEntries entries).msgs = entries.filterMap entryMsg? := by
      rw [scanEntries, scanGo_msgs]
      simp
    have hlat : (scanEntries entries).levelAtUser
        = ((userIdxs 0 (entries.filterMap entryMsg?)).zip
            (userLevelsSpec none entries)).reverse := by
      rw [scanEntries, scanGo_levelAtUser]
      simp
    rw [buildPublishedSession_turns, List.map_map]
    have hmc : ((splitTurns (scanEntries entries).msgs).filter (fun c => userHeaded c.2)).map
          (Turn.thinkingLevel ∘ chunkTurn home homeReal (scanEntries entries).toolResults
            header.cwd (scanEntries entries).levelAtUser)
        = ((splitTurns (scanEntries entries).msgs).filter (fun c => userHeaded c.2)).map
            (fun c => chunkLevel (scanEntries entries).levelAtUser c.1) := by
      refine List.map_congr_left ?_
      intro c hc
      obtain ⟨ci, cl⟩ := c
      cases cl with
      | nil =>
        have hh := List.of_mem_filter hc
        simp [userHeaded] at hh
      | cons u rest => simp [Function.comp, chunkTurn, buildTurn]
    rw [hmc]
    rw [show ((splitTurns (scanEntries entries).msgs).filter (fun c => userHeaded c.2)).map
          (fun c => chunkLevel (scanEntries entries).levelAtUser c.1)
        = (((splitTurns (scanEntries entries).msgs).filter (fun c => userHeaded c.2)).map
            (·.1)).map (chunkLevel (scanEntries entries).levelAtUser) from by
      rw [List.map_map]
      rfl]
    rw [splitTurns, splitTurnsGo_idxs]
    rw [show userHeaded ([] : List Msg) = false from rfl]
    simp only [Bool.false_eq_true, if_false, List.nil_append, List.map_map]
    rw [hmsgs, hlat]
    rw [show (chunkLevel ((userIdxs 0 (entries.filterMap entryMsg?)).zip
            (userLevelsSpec none entries)).reverse ∘ some)
        = (fun i => (((userIdxs 0 (entries.filterMap entryMsg?)).zip
            (userLevelsSpec none entries)).reverse.lookup i).join) from by
      funext i
      rfl]
    exact map_lookup_zip_reverse _ _ (userIdxs_nodup _ 0)
      (by rw [userIdxs_length, userLevelsSpec_length])
  · intro pre post m hm
    rw [userLevelsSpec_pos post m hm pre none, levelAfter]
    cases hl : (pre.filterMap tlcLevel?).getLast? with
    | some l => rfl
    | none => rfl

/-- C5 witness: `high → off → xhigh` before the only user message resolves
to `xhigh`, and a log with no thinking-level-change entries yields a turn
with the field omitted. -/
theorem thinking_level_resolution_witness :
    (buildPublishedSession [] [] wHeader
        [BranchEntry.thinkingLevelChange ThinkingLevel.high,
         BranchEntry.thinkingLevelChange ThinkingLevel.off,
         BranchEntry.thinkingLevelChange ThinkingLevel.xhigh,
         BranchEntry.message wUser] []).turns.map Turn.thinkingLevel
      = [some ThinkingLevel.xhigh]
    ∧ (buildPublishedSession [] [] wHeader [BranchEntry.message wUser] []).turns.map
        Turn.thinkingLevel = [none]
    ∧ (userLevelsSpec none
          ([BranchEntry.thinkingLevelChange ThinkingLevel.high]
            ++ BranchEntry.message wUser :: []))[0]?
        = some (([BranchEntry.thinkingLevelChange ThinkingLevel.high].filterMap
            tlcLevel?).getLast?) := by
  refine ⟨?_, ?_, ?_⟩
  · rw [(thinking_level_resolution [] [] wHeader
      [BranchEntry.thinkingLevelChange ThinkingLevel.high,
       BranchEntry.thinkingLevelChange ThinkingLevel.off,
       BranchEntry.thinkingLevelChange ThinkingLevel.xhigh,
       BranchEntry.message wUser] []).1]
    decide
  · rw [(thinking_level_resolution [] [] wHeader [BranchEntry.message wUser] []).1]
    decide
  · exact (thinking_level_resolution [] [] wHeader [] []).2
      [BranchEntry.thinkingLevelChange ThinkingLevel.high] [] wUser (by decide)

-- === Theorems: C9 ===

/-- Claim C9 as stated: always use the FIRST user message's text — first
line, trimmed, truncated to 30 characters — and the default label only when
no user message exists. -/
def titleClaimC9 (msgs : List Msg) : Str :=
  match msgs.find? (fun m => isUserB m) with
  | some m => (jsTrim (jsFirstLine (textOfContent m.content))).take 30
  | none => "Shared session".toList

/-- The C9 counterexample message: a user message of whitespace only. -/
def c9Blank : Msg :=
  { role := Role.user, content := ContentVal.str "   ".toList, timestamp := 0 }

/-- C9 counterexample: for a first user message whose first line trims to
empty, the claim's rule yields the empty title, while the source skips the
message (`if (firstLine) return` fails) and falls back to the default
label. -/
theorem title_claimC9_counterexample :
    titleFromFirstUserLine [c9Blank] ≠ titleClaimC9 [c9Blank] := by
  decide

/-- C9 (amended): the first user message whose first line is non-empty
after trimming provides the title (trimmed first line, truncated to 30
characters); user messages with an empty trimmed first line are skipped;
the fixed default label is returned when no user message yields a non-empty
first line — in particular when no user message exists. -/
def titleAmendedC9 (msgs : List Msg) : Str :=
  match msgs.find? (fun m =>
      isUserB m && decide (jsTrim (jsFirstLine (textOfContent m.content)) ≠ [])) with
  | some m => (jsTrim (jsFirstLine (textOfContent m.content))).take 30
  | none => "Shared session".toList

/-- C9 (amended), proved: the source's title rule equals the amended
first-non-empty-line rule. -/
theorem title_amended (msgs : List Msg) :
    titleFromFirstUserLine msgs = titleAmendedC9 msgs := by
  induction msgs with
  | nil => rfl
  | cons m ms ih =>
    rw [titleFromFirstUserLine, titleAmendedC9]
    by_cases hu : m.role = Role.user
    · have hub : isUserB m = true := by simp [isUserB, hu]
      rw [if_pos hu]
      by_cases hfl : jsTrim (jsFirstLine (textOfContent m.content)) ≠ []
      · rw [if_pos hfl]
        rw [List.find?_cons_of_pos]
        simp [hub, hfl]
      · rw [if_neg hfl, List.find?_cons_of_neg, ih, titleAmendedC9]
        simp [hub, hfl]
    · have hub : isUserB m = false := by simp [isUserB, hu]
      rw [if_neg hu, List.find?_cons_of_neg, ih, titleAmendedC9]
      simp [hub]

-- === src: the Trace-variant transform (buildCompletion) ===

/-- An TraceAction step of the Trace variant: raw argument mapping, optimistic
ok flag, and output whenever the correlated result has non-empty text. -/
structure TraceAction where
  name : String
  args : Args
  ok : Bool
  output : Option Str := none
deriving DecidableEq

/-- A step of the Trace-variant completion. -/
inductive CStep
  | narration (text : Str)
  | action (a : TraceAction)
deriving DecidableEq

/-- A turn's completion: the steps plus the blank-line-joined response. -/
structure Completion where
  steps : List CStep
  response : Str
deriving DecidableEq

/-- `textFrom(blocks)`: the non-empty text blocks, newline-joined. -/
def textFrom (blocks : List Block) : Str :=
  List.intercalate ['\n']
    (blocks.flatMap (fun b =>
      match b with
      | Block.text t => if t ≠ [] then [t] else []
      | _ => []))

/-- Whether a block is a tool call (`msg.content.some(b => b.type === "toolCall")`). -/
def isToolCallB : Block → Bool
  | Block.toolCall _ _ _ => true
  | _ => false

/-- The TraceAction built by the Trace variant for one tool call: ok unless a
result exists and is an error; output attached whenever the result's text
content is non-empty (a result's content is always a block array in the
source's types; anything else contributes no output). -/
def actionOf (toolResults : List (String × Msg)) (id name : String) (args : Args) : TraceAction :=
  let result := toolResults.lookup id
  { name := name
    args := args
    ok :=
      match result with
      | some r => !r.isError
      | none => true
    output :=
      match result with
      | some r =>
        match r.content with
        | ContentVal.blocks rbs =>
          let o := textFrom rbs
          if o ≠ [] then some o else none
        | _ => none
      | none => none }

/-- One step of the Trace variant's block loop, pushing narration steps,
response fragments, and actions onto the accumulators. -/
def completionStepBlock (toolResults : List (String × Msg)) (hasToolCall : Bool)
    (acc : List CStep × List Str) (b : Block) : List CStep × List Str :=
  match b with
  | Block.thinking t =>
    let text := jsTrim t
    if text ≠ [] then (acc.1 ++ [CStep.narration text], acc.2) else acc
  | Block.text t =>
    let text := jsTrim t
    if text ≠ [] then
      if hasToolCall then (acc.1 ++ [CStep.narration text], acc.2)
      else (acc.1, acc.2 ++ [text])
    else acc
  | Block.toolCall id name args =>
    (acc.1 ++ [CStep.action (actionOf toolResults id name args)], acc.2)
  | Block.other => acc

/-- One step of the Trace variant's message loop: non-assistant messages
contribute nothing; an assistant message's blocks are folded with its own
`hasToolCall` flag (the source's types make assistant content always a
block array; anything else contributes nothing). -/
def msgCompletionAcc (toolResults : List (String × Msg))
    (acc : List CStep × List Str) (msg : Msg) : List CStep × List Str :=
  if msg.role = Role.assistant then
    match msg.content with
    | ContentVal.blocks bs =>
      bs.foldl (completionStepBlock toolResults (bs.any isToolCallB)) acc
    | _ => acc
  else acc

/-- `buildCompletion(messages, toolResults)` of the Trace variant. -/
def buildCompletion (messages : List Msg) (toolResults : List (String × Msg)) : Completion :=
  let st := messages.foldl (msgCompletionAcc toolResults) ([], [])
  { steps := st.1, response := List.intercalate ('\n' :: '\n' :: []) st.2 }

-- === Theorems: C1 ===

/-- Following claim C1: the step (if any) a block yields — narration for
non-empty thinking, narration for non-empty text exactly when the message
has a tool call, an action for a tool call. -/
def blockStepC1 (toolResults : List (String × Msg)) (htc : Bool) : Block → Option CStep
  | Block.thinking t =>
    if jsTrim t ≠ [] then some (CStep.narration (jsTrim t)) else none
  | Block.text t =>
    if jsTrim t ≠ [] ∧ htc = true then some (CStep.narration (jsTrim t)) else none
  | Block.toolCall id name args => some (CStep.action (actionOf toolResults id name args))
  | Block.other => none

/-- Following claim C1: the response fragment (if any) a block yields — a
non-empty trimmed text block of a message with no tool call. -/
def blockRespC1 (htc : Bool) : Block → Option Str
  | Block.text t => if jsTrim t ≠ [] ∧ htc = false then some (jsTrim t) else none
  | _ => none

/-- Following claim C1: the steps an assistant message contributes. -/
def stepsSpecC1 (toolResults : List (String × Msg)) (m : Msg) : List CStep :=
  if m.role = Role.assistant then
    match m.content with
    | ContentVal.blocks bs => bs.filterMap (blockStepC1 toolResults (bs.any isToolCallB))
    | _ => []
  else []

/-- Following claim C1: the response fragments an assistant message
contributes, in document order. -/
def responseSpecC1 (m : Msg) : List Str :=
  if m.role = Role.assistant then
    match m.content with
    | ContentVal.blocks bs => bs.filterMap (blockRespC1 (bs.any isToolCallB))
    | _ => []
  else []

theorem foldl_completionStepBlock (toolResults : List (String × Msg)) (htc : Bool)
    (bs : List Block) :
    ∀ (acc : List CStep × List Str),
      bs.foldl (completionStepBlock toolResults htc) acc
        = (acc.1 ++ bs.filterMap (blockStepC1 toolResults htc),
           acc.2 ++ bs.filterMap (blockRespC1 htc)) := by
  induction bs with
  | nil =>
    intro acc
    simp
  | cons b bs ih =>
    intro acc
    rw [List.foldl_cons, ih]
    cases b with
    | thinking t =>
      by_cases ht : jsTrim t ≠ []
      · simp [completionStepBlock, blockStepC1, blockRespC1, ht, List.filterMap_cons]
      · simp [completionStepBlock, blockStepC1, blockRespC1, ht, List.filterMap_cons]
    | text t =>
      by_cases ht : jsTrim t ≠ []
      · cases htc with
        | true => simp [completionStepBlock, blockStepC1, blockRespC1, ht, List.filterMap_cons]
        | false => simp [completionStepBlock, blockStepC1, blockRespC1, ht, List.filterMap_cons]
      · simp [completionStepBlock, blockStepC1, blockRespC1, ht, List.filterMap_cons]
    | toolCall id name args =>
      simp [completionStepBlock, blockStepC1, blockRespC1, List.filterMap_cons]
    | other =>
      simp [completionStepBlock, blockStepC1, blockRespC1, List.filterMap_cons]

theorem foldl_msgCompletionAcc (toolResults : List (String × Msg)) (messages : List Msg) :
    ∀ (acc : List CStep × List Str),
      messages.foldl (msgCompletionAcc toolResults) acc
        = (acc.1 ++ messages.flatMap (stepsSpecC1 toolResults),
           acc.2 ++ messages.flatMap responseSpecC1) := by
  induction messages with
  | nil =>
    intro acc
    simp
  | cons m ms ih =>
    intro acc
    rw [List.foldl_cons, ih]
    by_cases hr : m.role = Role.assistant
    · cases hc : m.content with
      | blocks bs =>
        rw [show msgCompletionAcc toolResults acc m
            = bs.foldl (completionStepBlock toolResults (bs.any isToolCallB)) acc from by
          rw [msgCompletionAcc, if_pos hr, hc]]
        rw [foldl_completionStepBlock]
        simp [stepsSpecC1, responseSpecC1, hr, hc]
      | str s =>
        rw [show msgCompletionAcc toolResults acc m = acc from by
          rw [msgCompletionAcc, if_pos hr, hc]]
        simp [stepsSpecC1, responseSpecC1, hr, hc]
      | other =>
        rw [show msgCompletionAcc toolResults acc m = acc from by
          rw [msgCompletionAcc, if_pos hr, hc]]
        simp [stepsSpecC1, responseSpecC1, hr, hc]
    · rw [show msgCompletionAcc toolResults acc m = acc from by
        rw [msgCompletionAcc, if_neg hr]]
      simp [stepsSpecC1, responseSpecC1, hr]

/-- C1: a non-empty trimmed text block of an assistant message becomes a
narration step exactly when that message also contains a tool call;
otherwise its trimmed text joins the turn's single response (all such
fragments blank-line-joined in document order) and yields no step. -/
theorem text_narration_vs_response (messages : List Msg) (toolResults : List (String × Msg)) :
    (buildCompletion messages toolResults).steps = messages.flatMap (stepsSpecC1 toolResults)
    ∧ (buildCompletion messages toolResults).response
        = List.intercalate ('\n' :: '\n' :: []) (messages.flatMap responseSpecC1)
    ∧ (∀ (t : Str) (htc : Bool), jsTrim t ≠ [] →
        (blockStepC1 toolResults htc (Block.text t)
            = if htc = true then some (CStep.narration (jsTrim t)) else none)
        ∧ (blockRespC1 htc (Block.text t)
            = if htc = true then none else some (jsTrim t))) := by
  refine ⟨?_, ?_, ?_⟩
  · rw [buildCompletion]
    rw [foldl_msgCompletionAcc]
    simp
  · rw [buildCompletion]
    rw [foldl_msgCompletionAcc]
    simp
  · intro t htc ht
    cases htc with
    | true => simp [blockStepC1, blockRespC1, ht]
    | false => simp [blockStepC1, blockRespC1, ht]

/-- First assistant message of the C1 witness: narration text plus a tool
call in the same message. -/
def c1Asst1 : Msg :=
  { role := Role.assistant,
    content := ContentVal.blocks
      [Block.text "Let me read that file".toList,
       Block.toolCall "c1" "read" [("path", "/p/f.ts".toList)]],
    timestamp := 0 }

/-- Second assistant message of the C1 witness: text only, no tool call. -/
def c1Asst2 : Msg :=
  { role := Role.assistant,
    content := ContentVal.blocks [Block.text "Here are the results.".toList],
    timestamp := 0 }

/-- C1 witness: the text alongside a tool call becomes a narration step,
while the text of the tool-free message becomes the response. -/
theorem text_narration_vs_response_witness :
    (buildCompletion [c1Asst1, c1Asst2] []).steps
        = [CStep.narration "Let me read that file".toList,
           CStep.action (actionOf [] "c1" "read" [("path", "/p/f.ts".toList)])]
    ∧ (buildCompletion [c1Asst1, c1Asst2] []).response = "Here are the results.".toList
    ∧ blockRespC1 true (Block.text " hi ".toList) = none := by
  have h := text_narration_vs_response [c1Asst1, c1Asst2] []
  refine ⟨?_, ?_, ?_⟩
  · rw [h.1]
    decide
  · rw [h.2.1]
    decide
  · exact ((h.2.2 " hi ".toList true (by decide)).2).trans (if_pos rfl)
